import Mathlib

/-!
Verification of the training-loop core of flatland_ppo_training_one_train_single_track.py.

The script's algorithmic core is embedded shallowly:
  * the GAE advantage backward pass (lines 399-423) as an explicit state-passing
    loop over timesteps, with tensors over (timestep, agent) embedded as
    functions Nat → Nat → ℚ and the global per-timestep done flag as Nat → Bool;
  * the custom per-agent reward function RailEnvTd.update_step_rewards (lines 181-210);
  * the clipped / unclipped value loss (lines 466-480) over minibatch entries;
  * the minibatch index partition (lines 426-432) over Python list slices;
  * the epoch loop with KL early stop (lines 428-501) as an executed-(epoch,
    minibatch) trace;
  * linear learning-rate annealing (lines 362-367);
  * the tensordict merge semantics of RailEnvTd.reset and the rollout loop
    (lines 138-155 and 370-383);
  * the truthiness semantics of argparse type=bool flags (lines 90-97).

Machine floats are modelled by exact rationals.
-/

set_option maxHeartbeats 1000000

/-- Python float of a bool: float(True) is 1.0, float(False) is 0.0. -/
def b2q (b : Bool) : ℚ := if b then 1 else 0

/-- Inputs of the advantage computation (lines 399-423): the filled rollout
buffer fields, the configuration constants, and the bootstrap quantities.
`H` is args.num_steps, `done t` is rollout_data["done"][t], `nextDone` is
next_obs["done"] after the rollout, `nextValue` is next_value (per agent). -/
structure GaeParams where
  H : Nat
  gamma : ℚ
  lam : ℚ
  rewards : Nat → Nat → ℚ
  values : Nat → Nat → ℚ
  done : Nat → Bool
  nextDone : Bool
  nextValue : Nat → ℚ

/-- Loop state of the backward pass: the advantages tensor written so far and
the lastgaelam carry (per agent). -/
structure GaeState where
  advantages : Nat → Nat → ℚ
  lastgaelam : Nat → ℚ

/-- advantages = torch.zeros_like(rewards); lastgaelam = torch.zeros(num_agents). -/
def gaeInit : GaeState := ⟨fun _ _ => 0, fun _ => 0⟩

/-- One iteration of the loop body (lines 404-422) at timestep `t`:
nextnonterminal and nextvalues pick the bootstrap at t = H-1, delta is the TD
residual, and advantages[t] = lastgaelam = delta + gamma*lambda*nextnonterminal*lastgaelam. -/
def gaeStep (p : GaeParams) (t : Nat) (s : GaeState) : GaeState :=
  let nextnonterminal : ℚ :=
    if t = p.H - 1 then 1 - b2q p.nextDone else 1 - b2q (p.done (t + 1))
  let nextvalues : Nat → ℚ :=
    if t = p.H - 1 then p.nextValue else p.values (t + 1)
  let newAdv : Nat → ℚ := fun a =>
    (p.rewards t a + p.gamma * nextvalues a * nextnonterminal - p.values t a)
      + p.gamma * p.lam * nextnonterminal * s.lastgaelam a
  ⟨fun t' a => if t' = t then newAdv a else s.advantages t' a, newAdv⟩

/-- State of the loop `for t in reversed(range(num_steps))` after the
iterations t = H-1, H-2, ..., j have run (so `gaeFrom p 0` is the final state). -/
def gaeFrom (p : GaeParams) (j : Nat) : GaeState :=
  if h : j < p.H then gaeStep p j (gaeFrom p (j + 1)) else gaeInit
termination_by p.H - j

/-- The full backward pass over the horizon. -/
def gaeRun (p : GaeParams) : GaeState := gaeFrom p 0

/-- returns = advantages + rollout_data["values"] (line 423). -/
def gaeReturns (p : GaeParams) (t a : Nat) : ℚ :=
  (gaeRun p).advantages t a + p.values t a

/-- Modelled from the spec: the undiscounted return accumulated from `t` to the
end of the episode, bootstrapped with `nextValue` at the horizon boundary; a
done flag at t+1 ends accumulation. Comparison target for the claim that GAE
with gamma = lambda = 1 is the Monte-Carlo return. -/
def mcReturn (p : GaeParams) (t a : Nat) : ℚ :=
  if _h : t < p.H then
    p.rewards t a
      + (if t = p.H - 1 then (1 - b2q p.nextDone) * p.nextValue a
         else (1 - b2q (p.done (t + 1))) * mcReturn p (t + 1) a)
  else 0
termination_by p.H - t

/-- Concrete advantage-estimation input used to witness the GAE recurrence. -/
def gaeEx : GaeParams :=
  ⟨2, 99 / 100, 19 / 20, fun _ _ => 1, fun t a => (t : ℚ) + (a : ℚ), fun t => t = 1, true,
    fun _ => 5⟩

/-- Concrete advantage-estimation input with gamma = lambda = 1. -/
def gaeMcEx : GaeParams :=
  ⟨3, 1, 1, fun t _ => (t : ℚ) + 1, fun t a => (t : ℚ) - (a : ℚ), fun _ => false, true,
    fun _ => 7⟩

/-- The train states of the external flatland simulator
(flatland.envs.step_utils.states.TrainState), with its off-map / on-map
classification: WAITING, READY_TO_DEPART and MALFUNCTION_OFF_MAP are off map,
MOVING, STOPPED and MALFUNCTION are on map, DONE is neither. -/
inductive TrainState
  | WAITING
  | READY_TO_DEPART
  | MALFUNCTION_OFF_MAP
  | MOVING
  | STOPPED
  | MALFUNCTION
  | DONE
  deriving DecidableEq

/-- TrainState.is_off_map_state of the flatland library. -/
def TrainState.is_off_map_state : TrainState → Bool
  | TrainState.WAITING => true
  | TrainState.READY_TO_DEPART => true
  | TrainState.MALFUNCTION_OFF_MAP => true
  | _ => false

/-- TrainState.is_on_map_state of the flatland library. -/
def TrainState.is_on_map_state : TrainState → Bool
  | TrainState.MOVING => true
  | TrainState.STOPPED => true
  | TrainState.MALFUNCTION => true
  | _ => false

/-- The fields of a flatland agent read by update_step_rewards; the results of
the external calls agent.get_travel_time_on_shortest_path(distance_map) and
agent.get_current_delay(elapsed_steps, distance_map) are carried as fields. -/
structure Agent where
  state : TrainState
  latest_arrival : ℤ
  arrival_time : ℤ
  travel_time_on_shortest_path : ℤ
  current_delay : ℤ

/-- Environment constants read by update_step_rewards. -/
structure EnvCfg where
  cancellation_factor : ℤ
  cancellation_time_buffer : ℤ

/-- RailEnvTd.update_step_rewards (lines 181-210): the per-agent reward value
computed for the current step (the amount added into rewards_dict[i_agent]);
`none` models the Python reward variable staying None. -/
def update_step_rewards (env : EnvCfg) (a : Agent) : Option ℤ :=
  if a.state = TrainState.DONE then
    some (min (a.latest_arrival - a.arrival_time) 0)
  else
    let r1 : Option ℤ :=
      if a.state.is_off_map_state then
        some (-1 * env.cancellation_factor
          * (a.travel_time_on_shortest_path + env.cancellation_time_buffer))
      else none
    if a.state.is_on_map_state then some a.current_delay else r1

/-- Concrete environment constants for the reward witness. -/
def envEx : EnvCfg := ⟨1, 60⟩

/-- A done agent that arrived at 100 with latest allowed arrival 90. -/
def agentLateEx : Agent := ⟨TrainState.DONE, 90, 100, 40, 0⟩

/-- A done agent that arrived at 80 with latest allowed arrival 90. -/
def agentOnTimeEx : Agent := ⟨TrainState.DONE, 90, 80, 40, 0⟩

/-- One minibatch element of the value-loss computation: the re-evaluated value
newvalue, the stored rollout value, and the return target. -/
structure VEntry where
  newv : ℚ
  oldv : ℚ
  ret : ℚ

/-- torch .mean() over a flattened tensor, as a list of rationals. -/
def listMean (l : List ℚ) : ℚ := l.sum / l.length

/-- torch.clamp(x, lo, hi). -/
def clampQ (x lo hi : ℚ) : ℚ := min (max x lo) hi

/-- The value-loss computation (lines 466-480): with clip_vloss, the mean of
the elementwise max of the unclipped squared error and the squared error of
the clipped value, halved; otherwise half the mean squared error. The
elementwise tensor operations are zips over the minibatch list. -/
def vLoss (clip_vloss : Bool) (clip_coef : ℚ) (mb : List VEntry) : ℚ :=
  if clip_vloss then
    let v_loss_unclipped := mb.map (fun e => (e.newv - e.ret) ^ 2)
    let v_clipped := mb.map (fun e => e.oldv + clampQ (e.newv - e.oldv) (-clip_coef) clip_coef)
    let v_loss_clipped := (v_clipped.zip mb).map (fun x => (x.1 - x.2.ret) ^ 2)
    let v_loss_max := (v_loss_unclipped.zip v_loss_clipped).map (fun x => max x.1 x.2)
    (1 / 2 : ℚ) * listMean v_loss_max
  else
    (1 / 2 : ℚ) * listMean (mb.map (fun e => (e.newv - e.ret) ^ 2))

/-- Python range(0, stop, step) for a positive step. -/
def pyRangeStep (stop step : Nat) : List Nat :=
  (List.range ((stop + step - 1) / step)).map (fun i => i * step)

/-- args.batch_size = int(args.num_envs * args.num_steps) (line 99). -/
def batchSize (num_envs num_steps : Nat) : Nat := num_envs * num_steps

/-- args.minibatch_size = int(args.batch_size // args.num_minibatches) (line 100). -/
def minibatchSize (num_envs num_steps num_minibatches : Nat) : Nat :=
  batchSize num_envs num_steps / num_minibatches

/-- The minibatch index lists of one epoch (lines 430-432): b_inds is the
shuffled index array and each minibatch is the slice b_inds[start:end] with
end = start + minibatch_size, for start in range(0, batch_size, minibatch_size). -/
def minibatchLists (b_inds : List Nat) (batch_size minibatch_size : Nat) : List (List Nat) :=
  (pyRangeStep batch_size minibatch_size).map
    (fun start => (b_inds.drop start).take minibatch_size)

/-- Inputs of one update's optimization phase (lines 428-501): the number of
epochs, the number of minibatches per epoch, the approximate KL the code
computes at each (epoch, minibatch), and the configured threshold
args.target_kl (None by default). -/
structure UpdLoop where
  update_epochs : Nat
  nMinibatches : Nat
  approxKl : Nat → Nat → ℚ
  targetKl : Option ℚ

/-- The break test after an epoch (lines 499-501): with a threshold
configured, compare it against approx_kl, whose value after the minibatch
loop ends is the one computed in the last minibatch. -/
def klStop (c : UpdLoop) (e : Nat) : Bool :=
  match c.targetKl with
  | none => false
  | some tk => decide (tk < c.approxKl e (c.nMinibatches - 1))

/-- The (epoch, minibatch) iterations of one epoch of the minibatch loop
(lines 430-497), which contains no break of its own. -/
def epochMbs (c : UpdLoop) (e : Nat) : List (Nat × Nat) :=
  (List.range c.nMinibatches).map (fun m => (e, m))

/-- The iterations executed from epoch `e` on: run the whole epoch, then stop
if the KL test fires, else continue with the next epoch. -/
def runFrom (c : UpdLoop) (e : Nat) : List (Nat × Nat) :=
  if _h : e < c.update_epochs then
    epochMbs c e ++ (if klStop c e = true then [] else runFrom c (e + 1))
  else []
termination_by c.update_epochs - e

/-- All (epoch, minibatch) iterations executed by one update's optimization phase. -/
def updateRun (c : UpdLoop) : List (Nat × Nat) := runFrom c 0

/-- Concrete loop input with no KL threshold configured. -/
def updEx : UpdLoop := ⟨2, 2, fun _ _ => 0, none⟩

/-- The annealed learning rate (lines 364-367): frac = 1.0 - (update - 1.0) /
num_updates and lrnow = frac * args.learning_rate, applied at each update when
anneal_lr is set; `update` counts from 1. -/
def lrnow (lr0 : ℚ) (num_updates update : Nat) : ℚ :=
  (1 - ((update : ℚ) - 1) / (num_updates : ℚ)) * lr0

/-- The tensordict keys appearing in rollout_data and the step outputs. -/
inductive TdKey
  | observations
  | actions
  | logprobs
  | entropy
  | rewards
  | done
  | values
  deriving DecidableEq

/-- A tensordict value: the done entry is a boolean tensor, every other
payload is opaque. -/
inductive TdVal
  | vBool (b : Bool)
  | vData (n : Nat)
  deriving DecidableEq

/-- A tensordict as a partial map from keys to values. -/
def TDict := TdKey → Option TdVal

/-- TensorDict.update_: keys present in `new` overwrite `base`; keys absent
from `new` keep their old values. -/
def tdUpdate (base new : TDict) : TDict :=
  fun k => match new k with
  | some v => some v
  | none => base k

/-- RailEnvTd.reset (lines 138-155): the returned tensordict holds only the
"observations" entry (the feature tensors plus the valid-action mask, an
opaque payload here); the line writing a "done" entry is commented out and no
"rewards" entry is written. -/
def railResetTd (obsData : Nat) : TDict :=
  fun k => match k with
  | TdKey.observations => some (TdVal.vData obsData)
  | _ => none

/-- Lines 382-383 of the rollout loop: when next_obs["done"] is truthy,
next_obs.update_(env.reset()) merges the reset output into next_obs in place;
otherwise next_obs is left alone. -/
def stepEndNextObs (next_obs : TDict) (resetOut : TDict) : TDict :=
  if next_obs TdKey.done = some (TdVal.vBool true) then tdUpdate next_obs resetOut
  else next_obs

/-- A next_obs tensordict whose done entry is True. -/
def nextObsDoneEx : TDict :=
  fun k => match k with
  | TdKey.done => some (TdVal.vBool true)
  | _ => some (TdVal.vData 0)

/-- An arbitrary filled buffer slot. -/
def slotEx : TDict := fun _ => some (TdVal.vData 3)

/-- A Python CLI argument string, as its character list. -/
abbrev PyStr := List Char

/-- Python bool() applied to a str, which is what an argparse argument
declared with type=bool does to its argument string: every non-empty string
is truthy, only the empty string is falsy. -/
def pyBoolOfStr (s : PyStr) : Bool := !s.isEmpty

/-- An argparse type=bool flag (lines 90-97): absent, it takes its default;
given an argument string, argparse applies bool() to that string. -/
def parseBoolFlag (dflt : Bool) (arg : Option PyStr) : Bool :=
  match arg with
  | none => dflt
  | some s => pyBoolOfStr s

/-- The parsed --use-pretrained-network flag (type=bool, default True, line 90). -/
def use_pretrained_network (arg : Option PyStr) : Bool := parseBoolFlag true arg

/-- The parsed --do-training flag (type=bool, default True, line 94). -/
def do_training (arg : Option PyStr) : Bool := parseBoolFlag true arg

/-- The parsed --do-render flag (type=bool, default False, line 96). -/
def do_render (arg : Option PyStr) : Bool := parseBoolFlag false arg

/-- The characters of the Python string "False". -/
def falseStr : PyStr := ['F', 'a', 'l', 's', 'e']

lemma gaeFrom_lt (p : GaeParams) {j : Nat} (h : j < p.H) :
    gaeFrom p j = gaeStep p j (gaeFrom p (j + 1)) := by
  rw [gaeFrom]
  simp [h]

lemma gaeFrom_ge (p : GaeParams) {j : Nat} (h : ¬ j < p.H) :
    gaeFrom p j = gaeInit := by
  rw [gaeFrom]
  simp [h]

lemma gaeStep_adv_ne (p : GaeParams) (t : Nat) (s : GaeState) {t' : Nat} (a : Nat)
    (h : t' ≠ t) : (gaeStep p t s).advantages t' a = s.advantages t' a := by
  simp [gaeStep, h]

/-- Iterations below `t` never rewrite slot `t`: the advantage at `t` is fixed
as soon as iteration `t` has run. -/
lemma gaeFrom_adv_stable (p : GaeParams) (t a : Nat) :
    ∀ d j, j + d = t → (gaeFrom p j).advantages t a = (gaeFrom p t).advantages t a := by
  intro d
  induction d with
  | zero =>
    intro j hj
    have : j = t := by omega
    rw [this]
  | succ d ih =>
    intro j hj
    have hne : t ≠ j := by omega
    have h1 : (gaeFrom p j).advantages t a = (gaeFrom p (j + 1)).advantages t a := by
      by_cases hH : j < p.H
      · rw [gaeFrom_lt p hH]
        exact gaeStep_adv_ne p j (gaeFrom p (j + 1)) a hne
      · rw [gaeFrom_ge p hH, gaeFrom_ge p (show ¬ j + 1 < p.H by omega)]
    rw [h1]
    exact ih (j + 1) (by omega)

lemma gaeFrom_last_lt (p : GaeParams) {t : Nat} (h : t < p.H) (a : Nat) :
    (gaeFrom p t).lastgaelam a = (gaeFrom p t).advantages t a := by
  rw [gaeFrom_lt p h]
  simp [gaeStep]

lemma gaeFrom_last_ge (p : GaeParams) {t : Nat} (h : ¬ t < p.H) (a : Nat) :
    (gaeFrom p t).lastgaelam a = 0 := by
  rw [gaeFrom_ge p h]
  rfl

/-- The backward recurrence satisfied by the final advantages tensor. -/
lemma gae_adv_rec (p : GaeParams) (t a : Nat) (ht : t < p.H) :
    (gaeRun p).advantages t a =
      (p.rewards t a
          + p.gamma * (if t = p.H - 1 then p.nextValue a else p.values (t + 1) a)
            * (if t = p.H - 1 then 1 - b2q p.nextDone else 1 - b2q (p.done (t + 1)))
          - p.values t a)
        + p.gamma * p.lam
          * (if t = p.H - 1 then 1 - b2q p.nextDone else 1 - b2q (p.done (t + 1)))
          * (if t = p.H - 1 then 0 else (gaeRun p).advantages (t + 1) a) := by
  have h0 : (gaeRun p).advantages t a = (gaeFrom p t).advantages t a :=
    gaeFrom_adv_stable p t a t 0 (by omega)
  rw [h0, gaeFrom_lt p ht]
  by_cases hlast : t = p.H - 1
  · subst hlast
    have hge : ¬ (p.H - 1) + 1 < p.H := by omega
    simp [gaeStep, gaeFrom_last_ge p hge a]
  · have hlt : t + 1 < p.H := by omega
    have h1 : (gaeFrom p (t + 1)).lastgaelam a = (gaeRun p).advantages (t + 1) a := by
      rw [gaeFrom_last_lt p hlt a]
      exact (gaeFrom_adv_stable p (t + 1) a (t + 1) 0 (by omega)).symm
    simp [gaeStep, hlast, h1]

lemma mcReturn_lt (p : GaeParams) {t : Nat} (h : t < p.H) (a : Nat) :
    mcReturn p t a =
      p.rewards t a
        + (if t = p.H - 1 then (1 - b2q p.nextDone) * p.nextValue a
           else (1 - b2q (p.done (t + 1))) * mcReturn p (t + 1) a) := by
  rw [mcReturn]
  simp [h]

/-- With gamma = lambda = 1 the advantage recursion telescopes into the
Monte-Carlo return minus the value baseline, by downward induction on `t`. -/
lemma gae_mc_aux (p : GaeParams) (hg : p.gamma = 1) (hl : p.lam = 1) :
    ∀ d t a, t < p.H → p.H - 1 - t = d →
      (gaeRun p).advantages t a = mcReturn p t a - p.values t a := by
  intro d
  induction d with
  | zero =>
    intro t a ht hd
    have hlast : t = p.H - 1 := by omega
    subst hlast
    rw [gae_adv_rec p _ a ht, mcReturn_lt p ht a, hg, hl]
    simp
    ring
  | succ d ih =>
    intro t a ht hd
    have hne : t ≠ p.H - 1 := by omega
    have ht1 : t + 1 < p.H := by omega
    have hih := ih (t + 1) a ht1 (by omega)
    rw [gae_adv_rec p t a ht, mcReturn_lt p ht a]
    simp only [if_neg hne]
    rw [hih, hg, hl]
    ring

/-- Claim C1: the advantage tensor produced by the single backward pass
satisfies, at every timestep t < H and every agent, advantage[t] =
delta + gamma*lambda*nextnonterminal*lastgaelam with
delta = reward[t] + gamma*nextvalue*nextnonterminal - value[t], where
nextnonterminal is 1 - done[t+1] (1 - bootstrap_done at t = H-1), nextvalue is
values[t+1] (bootstrap_value at t = H-1), and lastgaelam is the advantage
computed at t+1 (zero initially, i.e. at t = H-1). -/
theorem gae_backward_recursion (p : GaeParams) (t a : Nat) (ht : t < p.H) :
    (gaeRun p).advantages t a =
      (p.rewards t a
          + p.gamma * (if t = p.H - 1 then p.nextValue a else p.values (t + 1) a)
            * (if t = p.H - 1 then 1 - b2q p.nextDone else 1 - b2q (p.done (t + 1)))
          - p.values t a)
        + p.gamma * p.lam
          * (if t = p.H - 1 then 1 - b2q p.nextDone else 1 - b2q (p.done (t + 1)))
          * (if t = p.H - 1 then 0 else (gaeRun p).advantages (t + 1) a) :=
  gae_adv_rec p t a ht

/-- Witness for claim C1 at the concrete input gaeEx, t = 0, a = 0. -/
theorem gae_backward_recursion_witness :
    0 < gaeEx.H ∧
      (gaeRun gaeEx).advantages 0 0 =
        (gaeEx.rewards 0 0
            + gaeEx.gamma * (if 0 = gaeEx.H - 1 then gaeEx.nextValue 0 else gaeEx.values (0 + 1) 0)
              * (if 0 = gaeEx.H - 1 then 1 - b2q gaeEx.nextDone else 1 - b2q (gaeEx.done (0 + 1)))
            - gaeEx.values 0 0)
          + gaeEx.gamma * gaeEx.lam
            * (if 0 = gaeEx.H - 1 then 1 - b2q gaeEx.nextDone else 1 - b2q (gaeEx.done (0 + 1)))
            * (if 0 = gaeEx.H - 1 then 0 else (gaeRun gaeEx).advantages (0 + 1) 0) :=
  ⟨by decide, gae_backward_recursion gaeEx 0 0 (by decide)⟩

/-- Claim C3: the returns array equals advantages + values exactly, at every
timestep and agent of the filled buffer. -/
theorem returns_eq_advantages_plus_values (p : GaeParams) (t a : Nat) :
    gaeReturns p t a = (gaeRun p).advantages t a + p.values t a := rfl

/-- Claim C7: with gamma = 1 and lambda = 1 the backward recursion produces, at
every timestep, the undiscounted return accumulated from t to the end of the
episode (bootstrapped at the horizon boundary) minus value[t]. -/
theorem gae_reduces_to_mc_return (p : GaeParams) (hg : p.gamma = 1) (hl : p.lam = 1)
    (t a : Nat) (ht : t < p.H) :
    (gaeRun p).advantages t a = mcReturn p t a - p.values t a :=
  gae_mc_aux p hg hl (p.H - 1 - t) t a ht rfl

/-- Witness for claim C7 at the concrete input gaeMcEx, t = 0, a = 0. -/
theorem gae_reduces_to_mc_return_witness :
    gaeMcEx.gamma = 1 ∧ gaeMcEx.lam = 1 ∧ 0 < gaeMcEx.H ∧
      (gaeRun gaeMcEx).advantages 0 0 = mcReturn gaeMcEx 0 0 - gaeMcEx.values 0 0 :=
  ⟨rfl, rfl, by decide, gae_reduces_to_mc_return gaeMcEx rfl rfl 0 0 (by decide)⟩

lemma vLoss_max_fuse (c : ℚ) (mb : List VEntry) :
    ((mb.map (fun e => (e.newv - e.ret) ^ 2)).zip
        (((mb.map (fun e => e.oldv + clampQ (e.newv - e.oldv) (-c) c)).zip mb).map
          (fun x => (x.1 - x.2.ret) ^ 2))).map (fun x => max x.1 x.2)
      = mb.map (fun e =>
          max ((e.newv - e.ret) ^ 2)
            ((e.oldv + clampQ (e.newv - e.oldv) (-c) c - e.ret) ^ 2)) := by
  induction mb with
  | nil => rfl
  | cons e mb ih => simp [ih]

/-- Claim C2: per agent and step, the computed reward is
min(latest_allowed_arrival - actual_arrival, 0) for a DONE agent,
-(cancellation_factor * (shortest-path travel time + cancellation_time_buffer))
for an agent that never departed (off-map state), the current accumulated
delay for an agent that departed but has not arrived (on-map state), and
exactly one of the three branches applies. -/
theorem reward_branches (env : EnvCfg) (a : Agent) :
    (a.state = TrainState.DONE →
        update_step_rewards env a = some (min (a.latest_arrival - a.arrival_time) 0))
    ∧ (a.state.is_off_map_state = true →
        update_step_rewards env a
          = some (-(env.cancellation_factor
              * (a.travel_time_on_shortest_path + env.cancellation_time_buffer))))
    ∧ (a.state.is_on_map_state = true →
        update_step_rewards env a = some a.current_delay)
    ∧ ((a.state = TrainState.DONE
          ∧ a.state.is_off_map_state = false ∧ a.state.is_on_map_state = false)
        ∨ (¬ a.state = TrainState.DONE
          ∧ a.state.is_off_map_state = true ∧ a.state.is_on_map_state = false)
        ∨ (¬ a.state = TrainState.DONE
          ∧ a.state.is_off_map_state = false ∧ a.state.is_on_map_state = true)) := by
  obtain ⟨s, la, arr, tt, cd⟩ := a
  cases s <;>
    simp [update_step_rewards, TrainState.is_off_map_state, TrainState.is_on_map_state,
      neg_one_mul, mul_assoc]

/-- Witness for claim C2: the spec examples, with cancellation_factor 1 and
cancellation_time_buffer 60; a DONE agent with actual arrival 100 and latest
arrival 90 gets reward -10, with actual arrival 80 it gets reward 0. -/
theorem reward_branches_witness :
    update_step_rewards envEx agentLateEx = some (-10)
      ∧ update_step_rewards envEx agentOnTimeEx = some 0 := by
  have h1 := (reward_branches envEx agentLateEx).1 rfl
  have h2 := (reward_branches envEx agentOnTimeEx).1 rfl
  rw [h1, h2]
  decide

/-- Claim C4: with clip_vloss enabled the value loss is 0.5 times the mean of
the pointwise maximum of the unclipped squared error (newvalue - returns)^2
and the clipped squared error (v_clipped - returns)^2, where v_clipped is the
stored value plus the value change clamped to [-clip_coef, clip_coef]; with it
disabled, 0.5 times the mean squared error of newvalue against returns. -/
theorem value_loss_characterization (c : ℚ) (mb : List VEntry) :
    vLoss true c mb
        = (1 / 2 : ℚ) * listMean (mb.map (fun e =>
            max ((e.newv - e.ret) ^ 2)
              ((e.oldv + clampQ (e.newv - e.oldv) (-c) c - e.ret) ^ 2)))
      ∧ vLoss false c mb
        = (1 / 2 : ℚ) * listMean (mb.map (fun e => (e.newv - e.ret) ^ 2)) :=
  ⟨congrArg (fun l => (1 / 2 : ℚ) * listMean l) (vLoss_max_fuse c mb), rfl⟩

lemma range_map_take_one (l : List Nat) :
    (List.range l.length).map (fun s => (l.drop s).take 1) = l.map (fun x => [x]) := by
  induction l with
  | nil => rfl
  | cons x xs ih =>
    rw [List.length_cons, List.range_succ_eq_map, List.map_cons, List.map_map]
    exact congrArg (List.cons [x]) ih

lemma flatten_map_singleton (l : List Nat) : (l.map (fun x => [x])).flatten = l := by
  induction l with
  | nil => rfl
  | cons x xs ih => simp [ih]

lemma countP_map_singleton (l : List Nat) (i : Nat) :
    (l.map (fun x => [x])).countP (fun mb => decide (i ∈ mb)) = l.count i := by
  induction l with
  | nil => rfl
  | cons x xs ih =>
    rw [List.map_cons, List.countP_cons, List.count_cons, ih]
    by_cases hxi : x = i
    · subst hxi
      simp
    · have hxi' : ¬ i = x := fun h => hxi h.symm
      simp [hxi, hxi']

lemma count_range_eq_one {i n : Nat} (h : i < n) : (List.range n).count i = 1 :=
  List.count_eq_one_of_mem (List.nodup_range n) (List.mem_range.mpr h)

/-- Claim C5: with num_steps = 20 and num_minibatches = 20 (one environment),
the minibatch size is 1 and, for any shuffle of the timestep indices, the
minibatches of an epoch partition the horizon: 20 minibatches of length 1,
whose concatenation is a permutation of [0, 20), and every index below 20
belongs to exactly one minibatch. -/
theorem minibatch_partition (perm : List Nat) (hperm : perm.Perm (List.range 20)) :
    minibatchSize 1 20 20 = 1
      ∧ (minibatchLists perm (batchSize 1 20) (minibatchSize 1 20 20)).length = 20
      ∧ (∀ mb ∈ minibatchLists perm (batchSize 1 20) (minibatchSize 1 20 20), mb.length = 1)
      ∧ ((minibatchLists perm (batchSize 1 20) (minibatchSize 1 20 20)).flatten).Perm
          (List.range 20)
      ∧ (∀ i, i < 20 →
          (minibatchLists perm (batchSize 1 20) (minibatchSize 1 20 20)).countP
            (fun mb => decide (i ∈ mb)) = 1) := by
  have hlen : perm.length = 20 := by simpa using hperm.length_eq
  have hbs : batchSize 1 20 = 20 := rfl
  have hms : minibatchSize 1 20 20 = 1 := rfl
  have h20 : pyRangeStep 20 1 = List.range 20 := by decide
  have hmb : minibatchLists perm (batchSize 1 20) (minibatchSize 1 20 20)
      = perm.map (fun x => [x]) := by
    rw [hbs, hms]
    unfold minibatchLists
    rw [h20, ← hlen]
    exact range_map_take_one perm
  refine ⟨rfl, ?_, ?_, ?_, ?_⟩
  · rw [hmb, List.length_map, hlen]
  · rw [hmb]
    intro mb hmem
    obtain ⟨x, _, hx⟩ := List.mem_map.mp hmem
    rw [← hx]
    rfl
  · rw [hmb, flatten_map_singleton]
    exact hperm
  · intro i hi
    rw [hmb, countP_map_singleton, hperm.count_eq, count_range_eq_one hi]

/-- Witness for claim C5 with the identity shuffle. -/
theorem minibatch_partition_witness :
    (List.range 20).Perm (List.range 20)
      ∧ minibatchSize 1 20 20 = 1
      ∧ (minibatchLists (List.range 20) (batchSize 1 20) (minibatchSize 1 20 20)).length = 20
      ∧ (minibatchLists (List.range 20) (batchSize 1 20) (minibatchSize 1 20 20)).countP
          (fun mb => decide ((5 : Nat) ∈ mb)) = 1 :=
  ⟨List.Perm.refl _,
    (minibatch_partition (List.range 20) (List.Perm.refl _)).1,
    (minibatch_partition (List.range 20) (List.Perm.refl _)).2.1,
    (minibatch_partition (List.range 20) (List.Perm.refl _)).2.2.2.2 5 (by norm_num)⟩

lemma runFrom_lt (c : UpdLoop) {e : Nat} (h : e < c.update_epochs) :
    runFrom c e = epochMbs c e ++ (if klStop c e = true then [] else runFrom c (e + 1)) := by
  rw [runFrom]
  simp [h]

lemma runFrom_ge (c : UpdLoop) {e : Nat} (h : ¬ e < c.update_epochs) :
    runFrom c e = [] := by
  rw [runFrom]
  simp [h]

lemma mem_epochMbs (c : UpdLoop) (e e' m : Nat) :
    (e', m) ∈ epochMbs c e ↔ (e' = e ∧ m < c.nMinibatches) := by
  constructor
  · intro hmem
    obtain ⟨m0, hm0, heq⟩ := List.mem_map.mp hmem
    injection heq with h1 h2
    exact ⟨h1.symm, h2 ▸ List.mem_range.mp hm0⟩
  · rintro ⟨he, hm⟩
    subst he
    exact List.mem_map.mpr ⟨m, List.mem_range.mpr hm, rfl⟩

/-- Membership in the executed trace: iteration (e', m) runs iff e' is a valid
epoch, m a valid minibatch, and no epoch before e' fired the KL stop. -/
lemma mem_runFrom (c : UpdLoop) :
    ∀ d e e' m, c.update_epochs - e = d →
      ((e', m) ∈ runFrom c e ↔
        (e ≤ e' ∧ e' < c.update_epochs ∧ m < c.nMinibatches
          ∧ ∀ k, e ≤ k → k < e' → klStop c k = false)) := by
  intro d
  induction d with
  | zero =>
    intro e e' m hd
    have h : ¬ e < c.update_epochs := by omega
    rw [runFrom_ge c h]
    simp only [List.not_mem_nil, false_iff]
    rintro ⟨h1, h2, _, _⟩
    omega
  | succ d ih =>
    intro e e' m hd
    have h : e < c.update_epochs := by omega
    rw [runFrom_lt c h, List.mem_append, mem_epochMbs]
    by_cases hs : klStop c e = true
    · rw [if_pos hs]
      simp only [List.not_mem_nil, or_false]
      constructor
      · rintro ⟨he, hm⟩
        subst he
        exact ⟨Nat.le_refl e', h, hm, fun k hk1 hk2 => absurd hk2 (by omega)⟩
      · rintro ⟨h1, h2, h3, h4⟩
        rcases Nat.lt_or_ge e e' with hlt | hge
        · exact absurd (h4 e (Nat.le_refl e) hlt) (by simp [hs])
        · exact ⟨by omega, h3⟩
    · rw [if_neg hs]
      have hsf : klStop c e = false := by
        cases hks : klStop c e
        · rfl
        · exact absurd hks hs
      rw [ih (e + 1) e' m (by omega)]
      constructor
      · rintro (⟨he, hm⟩ | ⟨h1, h2, h3, h4⟩)
        · subst he
          exact ⟨Nat.le_refl e', h, hm, fun k hk1 hk2 => absurd hk2 (by omega)⟩
        · refine ⟨by omega, h2, h3, ?_⟩
          intro k hk1 hk2
          rcases Nat.eq_or_lt_of_le hk1 with rfl | hk
          · exact hsf
          · exact h4 k (by omega) hk2
      · rintro ⟨h1, h2, h3, h4⟩
        rcases Nat.eq_or_lt_of_le h1 with rfl | hlt
        · exact Or.inl ⟨rfl, h3⟩
        · exact Or.inr ⟨by omega, h2, h3, fun k hk1 hk2 => h4 k (by omega) hk2⟩

lemma mem_updateRun (c : UpdLoop) (e' m : Nat) :
    (e', m) ∈ updateRun c ↔
      (e' < c.update_epochs ∧ m < c.nMinibatches ∧ ∀ k, k < e' → klStop c k = false) := by
  rw [updateRun, mem_runFrom c c.update_epochs 0 e' m rfl]
  constructor
  · rintro ⟨h1, h2, h3, h4⟩
    exact ⟨h2, h3, fun k hk => h4 k (Nat.zero_le k) hk⟩
  · rintro ⟨h1, h2, h3⟩
    exact ⟨Nat.zero_le e', h1, h2, fun k _ hk => h3 k hk⟩

/-- Claim C6: with no threshold configured every (epoch, minibatch) iteration
of all update_epochs epochs runs; an executed epoch always runs all of its
minibatches (the exit is never minibatch-level); and with a configured
threshold, if the approximate KL of an epoch (the value left by its last
minibatch) exceeds the threshold, no later epoch runs. -/
theorem kl_early_stop_epoch_level (c : UpdLoop) :
    (c.targetKl = none →
        ∀ e m, ((e, m) ∈ updateRun c ↔ (e < c.update_epochs ∧ m < c.nMinibatches)))
      ∧ (∀ e m, (e, m) ∈ updateRun c →
          ∀ m', m' < c.nMinibatches → (e, m') ∈ updateRun c)
      ∧ (∀ tk, c.targetKl = some tk →
          ∀ e, tk < c.approxKl e (c.nMinibatches - 1) →
            ∀ e' m', e < e' → (e', m') ∉ updateRun c) := by
  refine ⟨?_, ?_, ?_⟩
  · intro hnone e m
    rw [mem_updateRun]
    have hf : ∀ k, klStop c k = false := fun k => by simp [klStop, hnone]
    constructor
    · rintro ⟨h1, h2, _⟩
      exact ⟨h1, h2⟩
    · rintro ⟨h1, h2⟩
      exact ⟨h1, h2, fun k _ => hf k⟩
  · intro e m hmem m' hm'
    rw [mem_updateRun] at hmem ⊢
    exact ⟨hmem.1, hm', hmem.2.2⟩
  · intro tk htk e hkl e' m' hlt hmem
    rw [mem_updateRun] at hmem
    have hfalse := hmem.2.2 e hlt
    have hstop : klStop c e = true := by simp [klStop, htk, hkl]
    rw [hstop] at hfalse
    exact Bool.noConfusion hfalse

/-- Witness for claim C6 at a loop with two epochs, two minibatches and no
threshold configured. -/
theorem kl_early_stop_epoch_level_witness :
    updEx.targetKl = none
      ∧ ((1, 1) ∈ updateRun updEx ↔ (1 < updEx.update_epochs ∧ 1 < updEx.nMinibatches)) :=
  ⟨rfl, (kl_early_stop_epoch_level updEx).1 rfl 1 1⟩

/-- Counterexample to claim C8 as stated: with initial rate 1 and two total
updates, the annealed rate is nonzero at both updates of [1, 2], so the rate
does not reach zero by the end of training (the final update uses half the
initial rate, not zero). -/
theorem lr_anneal_cex : lrnow 1 2 1 ≠ 0 ∧ lrnow 1 2 2 ≠ 0 := by
  constructor <;> norm_num [lrnow]

/-- Claim C8 (amended): when annealing is enabled, the rate applied at update
u is the initial rate scaled by the linear fraction 1 - (u-1)/num_updates: it
equals the full initial rate at the first update, decreases by
initial/num_updates from each update to the next, and the final update
num_updates uses initial/num_updates; the schedule reaches zero only at the
hypothetical update num_updates + 1, one past the end of training. -/
theorem lr_anneal_linear (lr0 : ℚ) (N : Nat) (hN : 0 < N) :
    lrnow lr0 N 1 = lr0
      ∧ (∀ u : Nat, lrnow lr0 N (u + 1) - lrnow lr0 N u = -(lr0 / N))
      ∧ lrnow lr0 N N = lr0 / N
      ∧ lrnow lr0 N (N + 1) = 0 := by
  have hN0 : (N : ℚ) ≠ 0 := Nat.cast_ne_zero.mpr hN.ne'
  refine ⟨by simp [lrnow], ?_, ?_, ?_⟩
  · intro u
    unfold lrnow
    push_cast
    field_simp
    ring
  · unfold lrnow
    field_simp
  · unfold lrnow
    push_cast
    field_simp

/-- Witness for the amended claim C8 with initial rate 1 and two updates. -/
theorem lr_anneal_linear_witness :
    lrnow 1 2 1 = 1 ∧ lrnow 1 2 2 = 1 / 2 ∧ lrnow 1 2 3 = 0 := by
  have h := lr_anneal_linear 1 2 (by norm_num)
  refine ⟨h.1, ?_, ?_⟩
  · have h3 := h.2.2.1
    norm_num at h3
    exact h3
  · have h4 := h.2.2.2
    norm_num at h4
    exact h4

/-- Claim C9: reset returns a tensordict defining only the observations entry
and never a done or rewards entry, so when an episode ends and next_obs is
updated in place from reset(), the True done flag persists, and the buffer
write rollout_data[step].update_(next_obs) of the first post-reset timestep
stores that stale True done. -/
theorem reset_keeps_stale_done (o : Nat) :
    (∀ k, railResetTd o k ≠ none ↔ k = TdKey.observations)
      ∧ railResetTd o TdKey.done = none
      ∧ railResetTd o TdKey.rewards = none
      ∧ (∀ next_obs : TDict, next_obs TdKey.done = some (TdVal.vBool true) →
          stepEndNextObs next_obs (railResetTd o) TdKey.done = some (TdVal.vBool true)
            ∧ ∀ slot : TDict,
              tdUpdate slot (stepEndNextObs next_obs (railResetTd o)) TdKey.done
                = some (TdVal.vBool true)) := by
  refine ⟨?_, rfl, rfl, ?_⟩
  · intro k
    cases k <;> simp [railResetTd]
  · intro next_obs hdone
    have hs : stepEndNextObs next_obs (railResetTd o) TdKey.done
        = some (TdVal.vBool true) := by
      simp [stepEndNextObs, hdone, tdUpdate, railResetTd]
    exact ⟨hs, fun slot => by simp [tdUpdate, hs]⟩

/-- Witness for claim C9 at a concrete post-episode next_obs and buffer slot. -/
theorem reset_keeps_stale_done_witness :
    railResetTd 7 TdKey.done = none
      ∧ stepEndNextObs nextObsDoneEx (railResetTd 7) TdKey.done = some (TdVal.vBool true)
      ∧ tdUpdate slotEx (stepEndNextObs nextObsDoneEx (railResetTd 7)) TdKey.done
          = some (TdVal.vBool true) :=
  ⟨(reset_keeps_stale_done 7).2.1,
    ((reset_keeps_stale_done 7).2.2.2 nextObsDoneEx rfl).1,
    ((reset_keeps_stale_done 7).2.2.2 nextObsDoneEx rfl).2 slotEx⟩

/-- Claim C10: the flags --use-pretrained-network, --do-training and
--do-render are parsed with type=bool, so every non-empty argument string
(including "False") parses to True and only the empty string parses to False;
in particular passing --do-training False still enables training. -/
theorem type_bool_flags (s : PyStr) (h : s ≠ []) :
    use_pretrained_network (some s) = true
      ∧ do_training (some s) = true
      ∧ do_render (some s) = true
      ∧ do_training (some falseStr) = true
      ∧ use_pretrained_network (some []) = false
      ∧ do_training (some []) = false
      ∧ do_render (some []) = false := by
  have hb : pyBoolOfStr s = true := by
    cases s
    · exact absurd rfl h
    · rfl
  exact ⟨hb, hb, hb, rfl, rfl, rfl, rfl⟩

/-- Witness for claim C10 at the argument string "False". -/
theorem type_bool_flags_witness :
    falseStr ≠ [] ∧ do_training (some falseStr) = true :=
  ⟨by decide, (type_bool_flags falseStr (by decide)).2.1⟩
